import Mathlib

/-!
# Verification of the Stele append-only sequence

A shallow embedding of the core of the `stele` crate. The repository holds
several snapshots of the same data structure:

* `src/lib.rs` — the older single-struct variant: a `Stele` with a
  `[AtomicPtr<Inner<T>>; WORD_SIZE]` slot array (`WORD_SIZE = usize::BITS = 64`
  on the 64-bit non-loom build), a `cap` counter, `push` that starts with
  `cap.fetch_add(1)`, an unchecked `try_read`, and a `Drop` that frees
  `WORD_SIZE - size.leading_zeros()` blocks.
* `src/append.rs` (+ `append/iter.rs`, `append/reader.rs`, `append/writer.rs`,
  `src/mem.rs`) — the handle-based variant: a `Stele` with a
  `[AtomicPtr<Inner<T>>; 32]` slot array, a `len` counter, a push that loads
  `len`, writes the cell, and only then stores `len + 1`, a bounds-checked
  `try_read`, an `INITIAL_SIZE` batch of eagerly allocated blocks, and a `Drop`
  based on `size.next_power_of_two()`.

Heap blocks are modelled as a capacity together with a map from offsets to
cells; a cell is `Option`-valued, `none` standing for memory that was never
written (so reading it would be undefined behaviour in the source). A slot is
`Option (Block T)`, `none` standing for a null pointer. Operations that can
panic or hit undefined behaviour (a failed `compare_exchange ... .expect`,
a write or read through a null slot pointer, indexing the slot array out of
bounds) return `none` at the operation level.

Sequential semantics: the writer handle is unique and `!Sync`, so pushes are
modelled as a sequence of atomic-free state transformations; the intra-push
ordering of the length-counter update relative to the cell write is kept
faithful to each variant (`lib.rs` increments first, `append.rs` last).
-/

/-- Fueled binary logarithm: `log2Aux fuel n` is `⌊log₂ n⌋` whenever
`n < 2 ^ fuel` and `1 ≤ n`. Structural recursion on the fuel keeps it
kernel-reducible. -/
def log2Aux : Nat → Nat → Nat
  | 0, _ => 0
  | fuel + 1, n => if 2 ≤ n then log2Aux fuel (n / 2) + 1 else 0

/-- `⌊log₂ n⌋` for a 64-bit quantity, used to model `usize::leading_zeros`. -/
def log2u64 (n : Nat) : Nat := log2Aux 64 n

/-- `WORD_SIZE` from `src/lib.rs`: `usize::BITS as usize` on the (non-loom)
64-bit target. -/
def WORD_SIZE : Nat := 64

/-- `usize::leading_zeros` on the 64-bit target: `64` for `0`, otherwise
`63 - ⌊log₂ n⌋`. Only meaningful for `n < 2 ^ 64`, the representable range. -/
def leadingZeros (n : Nat) : Nat := if n = 0 then 64 else 63 - log2u64 n

/-- `split_idx` from `src/lib.rs` (non-loom): maps a global index to
`(outer_idx, inner_idx)`, i.e. (block, offset). For `idx ≠ 0`,
`outer_idx = WORD_SIZE - idx.leading_zeros()` and
`inner_idx = idx - (1 << (outer_idx - 1))`. -/
def split_idx (idx : Nat) : Nat × Nat :=
  if idx = 0 then (0, 0)
  else
    let outer := WORD_SIZE - leadingZeros idx
    (outer, idx - 2 ^ (outer - 1))

/-- `max_len` from `src/lib.rs`: the capacity of block `n` —
`1` for blocks `0` and `1`, otherwise `1 << (n - 1)`. -/
def max_len (n : Nat) : Nat := if n = 0 ∨ n = 1 then 1 else 2 ^ (n - 1)

/-- `usize::is_power_of_two` (true exactly on `2 ^ k`), for values in the
representable range `n < 2 ^ 64`. -/
def isPowerOfTwo (n : Nat) : Bool := n != 0 && 2 ^ log2u64 n == n

/-- `usize::next_power_of_two` (smallest power of two `≥ n`; `0` and `1` both
give `1`), for values in the representable range. Used by the `Drop` impl in
`src/append.rs`. -/
def nextPowerOfTwo (n : Nat) : Nat := if n ≤ 1 then 1 else 2 ^ (log2u64 (n - 1) + 1)

/-- The inverse of the index mapping, per the spec: `(0,0) ↦ 0` and
`(b,o) ↦ 2^(b-1) + o` for `b ≥ 1`. -/
def unsplit (b o : Nat) : Nat := if b = 0 then 0 else 2 ^ (b - 1) + o

/-- Number of cells in blocks `0, …, b - 1`: the global index at which block
`b` starts in the concatenation-of-blocks order. -/
def blockStart : Nat → Nat
  | 0 => 0
  | b + 1 => blockStart b + max_len b

/-- `Stele::<T>::INITIAL_SIZE` from `src/append.rs`, as a function of
`size_of::<T>()`: `3` for size `1`, `2` for sizes `2..=1023`, else `1`. -/
def initialSize (sz : Nat) : Nat :=
  if sz = 1 then 3 else if 2 ≤ sz ∧ sz ≤ 1023 then 2 else 1

/-- Declared length of the slot array `inners` in the handle-based variant:
`[AtomicPtr<Inner<T>>; 32]` in `src/append.rs`. -/
def appendSlotCount : Nat := 32

/-- Declared length of the slot array `inners` in the `src/lib.rs` variant:
`[AtomicPtr<Inner<T>>; WORD_SIZE]`. -/
def libSlotCount : Nat := WORD_SIZE

/-- A heap block: `cap` is the `max_len` passed to `alloc_inner`, and `cells`
maps each offset to its cell, `none` meaning the cell was never written
(`MaybeUninit` memory that must not be read). -/
structure Block (T : Type) where
  cap : Nat
  cells : Nat → Option T

/-- The shared state of a `Stele`: the slot array (`none` = null pointer) and
the length/capacity counter. Both `src/lib.rs` (`cap`) and `src/append.rs`
(`len`) variants share this shape; they differ in the operations. -/
structure Stele (T : Type) where
  inners : Nat → Option (Block T)
  len : Nat

/-- A freshly created `Stele`: every slot null, length `0`
(`Stele::new` in both variants). -/
def steleEmpty {T : Type} : Stele T := { inners := fun _ => none, len := 0 }

/-- `alloc_inner(len)`: a fresh block of capacity `len`, all cells unwritten. -/
def newBlock (T : Type) (len : Nat) : Block T := { cap := len, cells := fun _ => none }

/-- `self.inners[i]` on a slot array declared with `slots` entries: `none`
models the index-out-of-bounds panic, `some` returns the slot content. -/
def getSlot {T : Type} (slots : Nat) (s : Stele T) (i : Nat) : Option (Option (Block T)) :=
  if i < slots then some (s.inners i) else none

/-- Replace the pointer stored in slot `i`. -/
def setSlot {T : Type} (s : Stele T) (i : Nat) (b : Block T) : Stele T :=
  { s with inners := fun j => if j = i then some b else s.inners j }

/-- `self.inners[i].compare_exchange(null_mut(), alloc_inner(len), ..).expect(..)`:
succeeds only when slot `i` exists and currently holds null; a non-null slot
makes the `expect` panic (modelled as `none`). -/
def casInstallLen {T : Type} (slots : Nat) (s : Stele T) (i len : Nat) : Option (Stele T) :=
  match getSlot slots s i with
  | none => none
  | some (some _) => none
  | some none => some (setSlot s i (newBlock T len))

/-- The CAS installation as performed with the schedule size `max_len i`
(both variants always allocate block `i` with capacity `max_len i`). -/
def casInstall {T : Type} (slots : Nat) (s : Stele T) (i : Nat) : Option (Stele T) :=
  casInstallLen slots s i (max_len i)

/-- `(0..=INITIAL_SIZE).for_each(|i| …compare_exchange…)`: install each listed
slot in order, failing if any single CAS fails. -/
def installSeq {T : Type} (slots : Nat) : Stele T → List Nat → Option (Stele T)
  | s, [] => some s
  | s, i :: rest =>
    match casInstall slots s i with
    | some s2 => installSeq slots s2 rest
    | none => none

/-- `Stele::allocate(idx)` from `src/append.rs`: for `idx == 0` install blocks
`0..=INITIAL_SIZE` together, otherwise install the single block `idx`. -/
def allocateA {T : Type} (IS : Nat) (s : Stele T) (idx : Nat) : Option (Stele T) :=
  if idx = 0 then installSeq appendSlotCount s (List.range (IS + 1))
  else casInstall appendSlotCount s idx

/-- `*self.inners[outer].load(..).add(inner) = Inner::new(val)`: fails if the
slot array index is out of bounds or the slot pointer is null (a write through
a null pointer). -/
def writeCell {T : Type} (slots : Nat) (s : Stele T) (outer inner : Nat) (v : T) :
    Option (Stele T) :=
  match getSlot slots s outer with
  | none => none
  | some none => none
  | some (some blk) =>
    some (setSlot s outer
      { blk with cells := fun k => if k = inner then some v else blk.cells k })

/-- `Stele::push` from `src/append.rs` (parameterised by
`IS = INITIAL_SIZE`): read `idx = len`, split it, allocate when
`(idx.is_power_of_two() && outer > IS) || (outer <= IS && self.is_empty())`
(`is_empty()` loads `len` again, still `idx`), write the cell, and only then
store `len = idx + 1`. -/
def pushA {T : Type} (IS : Nat) (s : Stele T) (v : T) : Option (Stele T) :=
  let idx := s.len
  let outer := (split_idx idx).1
  let inner := (split_idx idx).2
  (if (isPowerOfTwo idx = true ∧ IS < outer) ∨ (outer ≤ IS ∧ idx = 0)
   then allocateA IS s outer
   else some s).bind fun s1 =>
    (writeCell appendSlotCount s1 outer inner v).bind fun s2 =>
      some { s2 with len := idx + 1 }

/-- A sequence of `push` calls on the `src/append.rs` variant, in order. -/
def pushAllA {T : Type} (IS : Nat) : Stele T → List T → Option (Stele T)
  | s, [] => some s
  | s, v :: vs =>
    match pushA IS s v with
    | some s2 => pushAllA IS s2 vs
    | none => none

/-- `Stele::read`/`read_raw` from `src/append.rs`: load the slot for
`split_idx idx` and read the cell. `none` stands for any of: slot array index
out of bounds, null slot pointer, or an unwritten cell — all undefined
behaviour in the source when the `idx < len` contract is violated. -/
def readA {T : Type} (s : Stele T) (idx : Nat) : Option T :=
  match getSlot appendSlotCount s (split_idx idx).1 with
  | some (some blk) => blk.cells (split_idx idx).2
  | _ => none

/-- `Stele::get` from `src/append.rs` (Copy types): same access path as
`read`, returning the value by copy. -/
def getA {T : Type} (s : Stele T) (idx : Nat) : Option T :=
  match getSlot appendSlotCount s (split_idx idx).1 with
  | some (some blk) => blk.cells (split_idx idx).2
  | _ => none

/-- The cell seen through slot `outer` at offset `inner` of the handle-based
variant (the shared tail of `read`, `get` and `try_read`), factored out for the
proofs: `readA s i = cellAt s (split_idx i).1 (split_idx i).2` definitionally. -/
def cellAt {T : Type} (s : Stele T) (outer inner : Nat) : Option T :=
  match getSlot appendSlotCount s outer with
  | some (some blk) => blk.cells inner
  | _ => none

/-- `Stele::try_read` from `src/append.rs`: `None` when `idx >= self.len()`,
otherwise `Some(read_raw(idx).as_ref()?.read())`. The result is doubly
optional: the outer layer is the function's `Option`, and the inner layer
records what the dereferenced cell held (`none` = it read unwritten
memory, which the bound check makes unreachable). -/
def tryReadA {T : Type} (s : Stele T) (idx : Nat) : Option (Option T) :=
  if s.len ≤ idx then none
  else
    match getSlot appendSlotCount s (split_idx idx).1 with
    | none => none
    | some none => none
    | some (some blk) => some (blk.cells (split_idx idx).2)

/-- The `cap.fetch_add(1, AcqRel)` that OPENS `Stele::push` in `src/lib.rs`:
the counter is bumped first and the old value is returned as the index. The
intermediate state (first component) is what readers can already observe. -/
def pushLibFetchAdd {T : Type} (s : Stele T) : Stele T × Nat :=
  ({ s with len := s.len + 1 }, s.len)

/-- The remainder of `Stele::push` from `src/lib.rs`, after the `fetch_add`:
allocate when `idx.is_power_of_two() || idx == 0 || idx == 1` (with size
`max_len(outer)`), then write the cell. The trailing release fence has no
sequential content. -/
def pushLibTail {T : Type} (s : Stele T) (idx : Nat) (v : T) : Option (Stele T) :=
  let outer := (split_idx idx).1
  let inner := (split_idx idx).2
  (if isPowerOfTwo idx = true ∨ idx = 0 ∨ idx = 1
   then casInstallLen libSlotCount s outer (max_len outer)
   else some s).bind fun s1 =>
    writeCell libSlotCount s1 outer inner v

/-- `Stele::push` from `src/lib.rs`, complete: `fetch_add` first, then
allocation and the cell write. -/
def pushLib {T : Type} (s : Stele T) (v : T) : Option (Stele T) :=
  pushLibTail (pushLibFetchAdd s).1 (pushLibFetchAdd s).2 v

/-- A sequence of `push` calls on the `src/lib.rs` variant. -/
def pushAllLib {T : Type} : Stele T → List T → Option (Stele T)
  | s, [] => some s
  | s, v :: vs =>
    match pushLib s v with
    | some s2 => pushAllLib s2 vs
    | none => none

/-- `Stele::read`/`read_raw` from `src/lib.rs` (64 slots). -/
def readLib {T : Type} (s : Stele T) (idx : Nat) : Option T :=
  match getSlot libSlotCount s (split_idx idx).1 with
  | some (some blk) => blk.cells (split_idx idx).2
  | _ => none

/-- `Stele::get` from `src/lib.rs` (Copy types). -/
def getLib {T : Type} (s : Stele T) (idx : Nat) : Option T :=
  match getSlot libSlotCount s (split_idx idx).1 with
  | some (some blk) => blk.cells (split_idx idx).2
  | _ => none

/-- `Stele::try_read` from `src/lib.rs`: NO length check —
`unsafe { Some(self.read_raw(idx).as_ref()?.read()) }`. The only `None` case
is a null slot pointer; a non-null slot is dereferenced unconditionally, so
the inner `Option` records what the cell held (`none` = unwritten memory). -/
def tryReadLib {T : Type} (s : Stele T) (idx : Nat) : Option (Option T) :=
  match getSlot libSlotCount s (split_idx idx).1 with
  | none => none
  | some none => none
  | some (some blk) => some (blk.cells (split_idx idx).2)

/-- `num_inners` computed by `impl Drop for Stele` in `src/lib.rs`:
`WORD_SIZE - size.leading_zeros()` where `size = *self.cap.get_mut()`. -/
def libDropRange (size : Nat) : Nat := WORD_SIZE - leadingZeros size

/-- The deallocation performed by `impl Drop for Stele` in `src/lib.rs`:
`dealloc_inner(self.inners[idx], max_len(idx))` for `idx in 0..num_inners`,
listed as (block index, deallocation size) pairs. -/
def libDropList (size : Nat) : List (Nat × Nat) :=
  (List.range (libDropRange size)).map fun i => (i, max_len i)

/-- `num_inners` computed by `impl Drop for Stele` in `src/append.rs` (after
the `size == 0` early return):
`max(usize::BITS - size.next_power_of_two().leading_zeros(), INITIAL_SIZE + 1)`. -/
def appendDropRange (IS size : Nat) : Nat :=
  if size = 0 then 0
  else max (WORD_SIZE - leadingZeros (nextPowerOfTwo size)) (IS + 1)

/-- The deallocation performed by `impl Drop for Stele` in `src/append.rs`:
`dealloc_inner(self.inners[idx], max_len(idx))` for `idx in 0..num_inners`. -/
def appendDropList (IS size : Nat) : List (Nat × Nat) :=
  (List.range (appendDropRange IS size)).map fun i => (i, max_len i)

/-- Iterator state shared by `RefIterator` (`src/append/iter.rs`) and
`SteleLiveIter` (`src/iter.rs`): a cursor plus the length snapshot taken at
construction (`len: handle.len()`). -/
structure RefIterSt where
  pos : Nat
  len : Nat
deriving DecidableEq

/-- `RefIterator::new` from `src/append/iter.rs`: `pos = 0`,
`len = handle.len()` — the snapshot. -/
def refIteratorNew {T : Type} (s : Stele T) : RefIterSt := { pos := 0, len := s.len }

/-- `<RefIterator as Iterator>::next` from `src/append/iter.rs`:
`(self.len > self.pos).then(|| { self.pos += 1; self.handle.read(self.pos - 1) })`,
evaluated against the CURRENT shared state `s` (which may have grown since the
snapshot). -/
def refIteratorNext {T : Type} (s : Stele T) (it : RefIterSt) :
    Option (Option T × RefIterSt) :=
  if it.pos < it.len then some (readA s it.pos, { pos := it.pos + 1, len := it.len })
  else none

/-- Iterator state of `CopyIterator` (`src/append/iter.rs`): same snapshot
discipline as `RefIterator`. -/
structure CopyIterSt where
  pos : Nat
  len : Nat
deriving DecidableEq

/-- `CopyIterator::new` from `src/append/iter.rs`: snapshot `len` at
construction. -/
def copyIteratorNew {T : Type} (s : Stele T) : CopyIterSt := { pos := 0, len := s.len }

/-- `<CopyIterator as Iterator>::next` from `src/append/iter.rs`. -/
def copyIteratorNext {T : Type} (s : Stele T) (it : CopyIterSt) :
    Option (Option T × CopyIterSt) :=
  if it.pos < it.len then some (getA s it.pos, { pos := it.pos + 1, len := it.len })
  else none

/-- Iterator state of `CopyIter` from `src/iter.rs`: ONLY a cursor — this
iterator stores no length snapshot. -/
structure CopyIterLiveSt where
  pos : Nat
deriving DecidableEq

/-- `<CopyIter as Iterator>::next` from `src/iter.rs`:
`if self.len() > self.pos { let ret = self.get(self.pos); self.pos += 1; … }` —
`self.len()` re-reads the LIVE length of the underlying `src/lib.rs` `Stele`
on every call. -/
def copyIterLiveNext {T : Type} (s : Stele T) (it : CopyIterLiveSt) :
    Option (Option T × CopyIterLiveSt) :=
  if it.pos < s.len then some (getLib s it.pos, { pos := it.pos + 1 })
  else none

/-- The `src/lib.rs` variant after `push(10); push(20); push(30)`:
blocks 0 (cap 1), 1 (cap 1) and 2 (cap 2) are allocated and `cap = 3`,
but cell `(2,1)` was never written. -/
def libS3 : Stele Nat := (pushAllLib steleEmpty [10, 20, 30]).getD steleEmpty

/-- The `src/lib.rs` variant after a single `push 10` (length 1). -/
def libS1 : Stele Nat := (pushAllLib steleEmpty [10]).getD steleEmpty

/-- `libS1` after the writer pushed one more value, `20` (length 2) —
growth happening between two iterator steps. -/
def libS2 : Stele Nat := (pushLib libS1 20).getD steleEmpty

/-- The handle-based (`src/append.rs`) variant after pushes `[1, 2]` with
`INITIAL_SIZE = 2`: the snapshot a `RefIterator`/`CopyIterator` is built on. -/
def c7s0 : Stele Nat := (pushAllA 2 steleEmpty [1, 2]).getD steleEmpty

/-- `c7s0` after the writer pushed one more value, `5` — the sequence growing
while an iterator is mid-traversal. -/
def c7s1 : Stele Nat := (pushAllA 2 c7s0 [5]).getD steleEmpty

/-- The invariant tying a state of the `src/append.rs` variant to the abstract
list `ws` of values pushed so far (in order). -/
structure SteleInv {T : Type} (IS : Nat) (ws : List T) (s : Stele T) : Prop where
  len_eq : s.len = ws.length
  slots : ∀ b, (s.inners b).isSome ↔
    (ws.length ≠ 0 ∧ b ≤ max IS (split_idx (ws.length - 1)).1)
  caps : ∀ b blk, s.inners b = some blk → blk.cap = max_len b
  reads : ∀ i, readA s i = ws[i]?

theorem log2Aux_spec : ∀ (fuel n : Nat), 1 ≤ n → n < 2 ^ fuel →
    2 ^ log2Aux fuel n ≤ n ∧ n < 2 ^ (log2Aux fuel n + 1)
  | 0, n, h1, h2 => by simp at h2; omega
  | fuel + 1, n, h1, h2 => by
    by_cases h : 2 ≤ n
    · have hrec := log2Aux_spec fuel (n / 2) (by omega)
        (by rw [Nat.div_lt_iff_lt_mul (by omega)]; rw [pow_succ] at h2; omega)
      simp only [log2Aux, if_pos h]
      rcases hrec with ⟨ha, hb⟩
      set a := log2Aux fuel (n / 2) with hadef
      have e1 : 2 ^ (a + 1) = 2 ^ a * 2 := by rw [pow_succ]
      have e2 : 2 ^ (a + 1 + 1) = 2 ^ (a + 1) * 2 := by rw [pow_succ]
      have hdiv : n / 2 * 2 ≤ n := Nat.div_mul_le_self n 2
      have hdiv2 : n < n / 2 * 2 + 2 := by omega
      omega
    · have hn : n = 1 := by omega
      subst hn
      simp [log2Aux, h]

theorem log2u64_spec (n : Nat) (h1 : 1 ≤ n) (h2 : n < 2 ^ 64) :
    2 ^ log2u64 n ≤ n ∧ n < 2 ^ (log2u64 n + 1) :=
  log2Aux_spec 64 n h1 h2

theorem log2u64_unique (n k : Nat) (hn : n < 2 ^ 64) (h1 : 2 ^ k ≤ n)
    (h2 : n < 2 ^ (k + 1)) : log2u64 n = k := by
  have hpos : 1 ≤ n := le_trans (Nat.one_le_two_pow) h1
  obtain ⟨ha, hb⟩ := log2u64_spec n hpos hn
  by_contra hne
  rcases Nat.lt_or_ge (log2u64 n) k with h | h
  · have : 2 ^ (log2u64 n + 1) ≤ 2 ^ k := Nat.pow_le_pow_right (by omega) (by omega)
    omega
  · have hk : k < log2u64 n := by omega
    have : 2 ^ (k + 1) ≤ 2 ^ log2u64 n := Nat.pow_le_pow_right (by omega) (by omega)
    omega

theorem log2u64_le_63 (n : Nat) (h : n < 2 ^ 64) : log2u64 n ≤ 63 := by
  by_cases h1 : 1 ≤ n
  · obtain ⟨ha, _⟩ := log2u64_spec n h1 h
    by_contra hgt
    have : 2 ^ 64 ≤ 2 ^ log2u64 n := Nat.pow_le_pow_right (by omega) (by omega)
    omega
  · have : n = 0 := by omega
    subst this
    simp [log2u64, log2Aux]

theorem log2u64_two_pow (k : Nat) (h : k ≤ 63) : log2u64 (2 ^ k) = k :=
  log2u64_unique _ _ (Nat.pow_lt_pow_right (by omega) (by omega)) le_rfl
    (Nat.pow_lt_pow_right (by omega) (by omega))

theorem log2u64_eq_log (n : Nat) (h1 : 1 ≤ n) (h2 : n < 2 ^ 64) :
    log2u64 n = Nat.log 2 n := by
  obtain ⟨ha, hb⟩ := log2u64_spec n h1 h2
  exact (Nat.log_eq_of_pow_le_of_lt_pow ha hb).symm

theorem split_idx_zero : split_idx 0 = (0, 0) := rfl

theorem split_idx_eq (idx : Nat) (h1 : 1 ≤ idx) (h2 : idx < 2 ^ 64) :
    split_idx idx = (log2u64 idx + 1, idx - 2 ^ log2u64 idx) := by
  have hle := log2u64_le_63 idx h2
  simp only [split_idx, leadingZeros, WORD_SIZE, if_neg (by omega : ¬ idx = 0)]
  have e1 : 64 - (63 - log2u64 idx) = log2u64 idx + 1 := by omega
  rw [e1]
  simp

theorem split_idx_fst (idx : Nat) (h1 : 1 ≤ idx) (h2 : idx < 2 ^ 64) :
    (split_idx idx).1 = log2u64 idx + 1 := by rw [split_idx_eq idx h1 h2]

theorem split_idx_snd (idx : Nat) (h1 : 1 ≤ idx) (h2 : idx < 2 ^ 64) :
    (split_idx idx).2 = idx - 2 ^ log2u64 idx := by rw [split_idx_eq idx h1 h2]

theorem split_idx_two_pow (k : Nat) (h : k ≤ 63) : split_idx (2 ^ k) = (k + 1, 0) := by
  rw [split_idx_eq _ (Nat.one_le_two_pow) (Nat.pow_lt_pow_right (by omega) (by omega)),
    log2u64_two_pow k h]
  simp

theorem isPowerOfTwo_iff (n : Nat) :
    isPowerOfTwo n = true ↔ n = 2 ^ log2u64 n ∧ n ≠ 0 := by
  simp only [isPowerOfTwo, Bool.and_eq_true, bne_iff_ne, beq_iff_eq]
  constructor
  · rintro ⟨ha, hb⟩; exact ⟨hb.symm, ha⟩
  · rintro ⟨ha, hb⟩; exact ⟨hb, ha.symm⟩

theorem isPowerOfTwo_two_pow (k : Nat) (h : k ≤ 63) : isPowerOfTwo (2 ^ k) = true := by
  rw [isPowerOfTwo_iff, log2u64_two_pow k h]
  exact ⟨rfl, by positivity⟩

theorem not_isPowerOfTwo_lt (n : Nat) (h : n < 2 ^ 64) (hn : 1 ≤ n)
    (hp : isPowerOfTwo n = false) : 2 ^ log2u64 n < n := by
  obtain ⟨ha, _⟩ := log2u64_spec n hn h
  rcases Nat.lt_or_ge (2 ^ log2u64 n) n with hlt | hge
  · exact hlt
  · have heq : n = 2 ^ log2u64 n := by omega
    have htrue := (isPowerOfTwo_iff n).mpr ⟨heq, by omega⟩
    rw [hp] at htrue
    exact absurd htrue (by simp)

theorem isPowerOfTwo_of_eq_pow (n k : Nat) (hk : k ≤ 63) (h : n = 2 ^ k) :
    isPowerOfTwo n = true := h ▸ isPowerOfTwo_two_pow k hk

theorem split_idx_fst_le (idx : Nat) (h : idx < 2 ^ 64) : (split_idx idx).1 ≤ 64 := by
  by_cases h1 : 1 ≤ idx
  · rw [split_idx_fst idx h1 h]
    have := log2u64_le_63 idx h
    omega
  · have : idx = 0 := by omega
    subst this
    simp [split_idx_zero]

theorem split_idx_fst_pos (idx : Nat) (h1 : 1 ≤ idx) : 1 ≤ (split_idx idx).1 := by
  simp only [split_idx, if_neg (by omega : ¬ idx = 0), leadingZeros,
    if_neg (by omega : ¬ idx = 0), WORD_SIZE]
  omega

theorem split_idx_snd_lt (idx : Nat) (h1 : 1 ≤ idx) (h2 : idx < 2 ^ 64) :
    (split_idx idx).2 < max_len (split_idx idx).1 := by
  obtain ⟨ha, hb⟩ := log2u64_spec idx h1 h2
  rw [split_idx_fst idx h1 h2, split_idx_snd idx h1 h2]
  by_cases hz : log2u64 idx = 0
  · rw [hz] at ha hb ⊢
    simp only [max_len]
    norm_num at hb ⊢
    omega
  · have : max_len (log2u64 idx + 1) = 2 ^ log2u64 idx := by
      simp only [max_len, if_neg (by omega : ¬ (log2u64 idx + 1 = 0 ∨ log2u64 idx + 1 = 1))]
      simp
    rw [this]
    rw [pow_succ] at hb
    omega

theorem split_idx_step_pow (idx : Nat) (h1 : 1 ≤ idx) (h2 : idx < 2 ^ 64)
    (hp : isPowerOfTwo idx = true) :
    (split_idx idx).1 = (split_idx (idx - 1)).1 + 1 := by
  obtain ⟨heq, hne⟩ := (isPowerOfTwo_iff idx).mp hp
  set k := log2u64 idx with hk
  rw [split_idx_fst idx h1 h2]
  by_cases hk0 : k = 0
  · have : idx = 1 := by rw [heq, hk0]; rfl
    subst this
    decide
  · have hklt : k ≤ 63 := log2u64_le_63 idx h2
    have hpred1 : 1 ≤ idx - 1 := by
      have : 2 ^ 1 ≤ 2 ^ k := Nat.pow_le_pow_right (by omega) (by omega)
      omega
    rw [split_idx_fst (idx - 1) hpred1 (by omega)]
    have hlog : log2u64 (idx - 1) = k - 1 := by
      apply log2u64_unique _ _ (by omega)
      · have hsplit : 2 ^ k = 2 ^ (k - 1) * 2 := by
          rw [← pow_succ]
          congr 1
          omega
        omega
      · have : k - 1 + 1 = k := by omega
        rw [this]
        omega
    rw [hlog]
    omega

theorem split_idx_step_not_pow (idx : Nat) (h1 : 1 ≤ idx) (h2 : idx < 2 ^ 64)
    (hp : isPowerOfTwo idx = false) :
    (split_idx idx).1 = (split_idx (idx - 1)).1 := by
  have hlt := not_isPowerOfTwo_lt idx h2 h1 hp
  have h1' : 1 ≤ idx - 1 := by
    have : 1 ≤ 2 ^ log2u64 idx := Nat.one_le_two_pow
    omega
  obtain ⟨ha, hb⟩ := log2u64_spec idx h1 h2
  have hlog : log2u64 (idx - 1) = log2u64 idx :=
    log2u64_unique _ _ (by omega) (by omega) (by omega)
  rw [split_idx_fst idx h1 h2, split_idx_fst (idx - 1) h1' (by omega), hlog]

theorem unsplit_split (idx : Nat) : unsplit (split_idx idx).1 (split_idx idx).2 = idx := by
  by_cases h0 : idx = 0
  · subst h0
    simp [split_idx_zero, unsplit]
  · have h1 : 1 ≤ idx := by omega
    simp only [split_idx, if_neg h0, leadingZeros, if_neg h0, WORD_SIZE]
    set a := log2u64 idx with ha
    have hle : 2 ^ (64 - (63 - a) - 1) ≤ idx := by
      by_cases hc : a ≤ 63
      · have e : 64 - (63 - a) - 1 = a := by omega
        rw [e]
        by_cases hlt : idx < 2 ^ 64
        · exact (log2u64_spec idx h1 hlt).1
        · have : 2 ^ a ≤ 2 ^ 63 := Nat.pow_le_pow_right (by omega) hc
          omega
      · have e : 64 - (63 - a) - 1 = 63 := by omega
        rw [e]
        have hbig : ¬ idx < 2 ^ 64 := by
          intro hlt
          exact hc (log2u64_le_63 idx hlt)
        omega
    simp only [unsplit, if_neg (by omega : ¬ 64 - (63 - a) = 0)]
    omega

theorem split_idx_injective (i j : Nat) (h : split_idx i = split_idx j) : i = j := by
  have hi := unsplit_split i
  have hj := unsplit_split j
  rw [h] at hi
  omega

theorem split_unsplit (b o : Nat) (hb : b ≤ 64) (ho : o < max_len b) :
    split_idx (unsplit b o) = (b, o) := by
  match b with
  | 0 =>
    simp [max_len] at ho
    subst ho
    simp [unsplit, split_idx_zero]
  | 1 =>
    simp [max_len] at ho
    subst ho
    simp only [unsplit, if_neg (by omega : ¬ (1:Nat) = 0), pow_zero]
    rw [(by norm_num : 2 ^ (1 - 1) + 0 = 1)]
    rw [split_idx_eq 1 (by omega) (by norm_num)]
    simp [log2u64, log2Aux]
  | bb + 2 =>
    have ho' : o < 2 ^ (bb + 1) := by
      simpa [max_len] using ho
    simp only [unsplit, if_neg (by omega : ¬ bb + 2 = 0)]
    have e : bb + 2 - 1 = bb + 1 := by omega
    rw [e]
    have hidx1 : 1 ≤ 2 ^ (bb + 1) + o := by
      have hpow := Nat.one_le_two_pow (n := bb + 1)
      omega
    have e2 : 2 ^ (bb + 2) = 2 ^ (bb + 1) * 2 := by rw [pow_succ]
    have hidx2 : 2 ^ (bb + 1) + o < 2 ^ 64 := by
      have hlt : 2 ^ (bb + 2) ≤ 2 ^ 64 := Nat.pow_le_pow_right (by omega) (by omega)
      omega
    rw [split_idx_eq _ hidx1 hidx2]
    have hlog : log2u64 (2 ^ (bb + 1) + o) = bb + 1 := by
      apply log2u64_unique _ _ hidx2 (by omega)
      rw [pow_succ]
      omega
    rw [hlog]
    simp

theorem max_len_zero : max_len 0 = 1 := rfl

theorem max_len_one : max_len 1 = 1 := rfl

theorem max_len_ge_two (b : Nat) (h : 2 ≤ b) : max_len b = 2 ^ (b - 1) := by
  simp only [max_len, if_neg (by omega : ¬ (b = 0 ∨ b = 1))]

theorem blockStart_eq (b : Nat) (h : 1 ≤ b) : blockStart b = 2 ^ (b - 1) := by
  induction b with
  | zero => omega
  | succ bb ih =>
    by_cases hbb : 1 ≤ bb
    · have e : blockStart (bb + 1) = blockStart bb + max_len bb := rfl
      rw [e, ih hbb]
      by_cases hb1 : bb = 1
      · subst hb1
        decide
      · rw [max_len_ge_two bb (by omega)]
        have e2 : bb + 1 - 1 = bb - 1 + 1 := by omega
        rw [e2, pow_succ]
        omega
    · have : bb = 0 := by omega
      subst this
      decide

theorem blockStart_split (idx : Nat) (h : idx < 2 ^ 64) :
    blockStart (split_idx idx).1 + (split_idx idx).2 = idx := by
  by_cases h0 : idx = 0
  · subst h0
    decide
  · have h1 : 1 ≤ idx := by omega
    obtain ⟨ha, _⟩ := log2u64_spec idx h1 h
    rw [split_idx_fst idx h1 h, split_idx_snd idx h1 h,
      blockStart_eq (log2u64 idx + 1) (by omega)]
    simp only [Nat.add_sub_cancel]
    omega

theorem getSlot_lt {T : Type} (slots : Nat) (s : Stele T) (i : Nat) (h : i < slots) :
    getSlot slots s i = some (s.inners i) := by
  simp [getSlot, h]

theorem getSlot_ge {T : Type} (slots : Nat) (s : Stele T) (i : Nat) (h : slots ≤ i) :
    getSlot slots s i = none := by
  simp [getSlot]
  omega

theorem setSlot_inners {T : Type} (s : Stele T) (i : Nat) (b : Block T) (j : Nat) :
    (setSlot s i b).inners j = if j = i then some b else s.inners j := rfl

theorem setSlot_len {T : Type} (s : Stele T) (i : Nat) (b : Block T) :
    (setSlot s i b).len = s.len := rfl

theorem casInstall_none {T : Type} (slots : Nat) (s : Stele T) (i : Nat)
    (hi : i < slots) (hnone : s.inners i = none) :
    casInstall slots s i = some (setSlot s i (newBlock T (max_len i))) := by
  simp [casInstall, casInstallLen, getSlot_lt slots s i hi, hnone]

theorem writeCell_some {T : Type} (slots : Nat) (s : Stele T) (outer inner : Nat)
    (v : T) (blk : Block T) (ho : outer < slots) (hsome : s.inners outer = some blk) :
    writeCell slots s outer inner v =
      some (setSlot s outer
        { blk with cells := fun k => if k = inner then some v else blk.cells k }) := by
  simp [writeCell, getSlot_lt slots s outer ho, hsome]

theorem installSeq_append_eq {T : Type} (slots : Nat) (s : Stele T) (l1 l2 : List Nat) :
    installSeq slots s (l1 ++ l2) =
      (installSeq slots s l1).bind fun s2 => installSeq slots s2 l2 := by
  induction l1 generalizing s with
  | nil => simp [installSeq]
  | cons i rest ih =>
    simp only [List.cons_append, installSeq]
    cases h : casInstall slots s i with
    | some s2 => simpa using ih s2
    | none => simp

theorem installSeq_single {T : Type} (slots : Nat) (s : Stele T) (i : Nat) :
    installSeq slots s [i] = casInstall slots s i := by
  cases h : casInstall slots s i <;> simp [installSeq, h]

theorem installSeq_range {T : Type} (n : Nat) (hn : n ≤ 32) (s : Stele T)
    (hfresh : ∀ b, s.inners b = none) :
    ∃ s2, installSeq appendSlotCount s (List.range n) = some s2 ∧
      s2.len = s.len ∧
      ∀ b, s2.inners b = if b < n then some (newBlock T (max_len b)) else none := by
  induction n with
  | zero =>
    exact ⟨s, rfl, rfl, by simpa using hfresh⟩
  | succ m ih =>
    obtain ⟨s2, hs2, hlen, hinn⟩ := ih (by omega)
    have hm : m < appendSlotCount := by simp [appendSlotCount]; omega
    have hmnone : s2.inners m = none := by rw [hinn m]; simp
    refine ⟨setSlot s2 m (newBlock T (max_len m)), ?_, ?_, ?_⟩
    · rw [List.range_succ, installSeq_append_eq, hs2]
      show installSeq appendSlotCount s2 [m] = _
      rw [installSeq_single, casInstall_none appendSlotCount s2 m hm hmnone]
    · rw [setSlot_len, hlen]
    · intro b
      rw [setSlot_inners, hinn b]
      by_cases hb : b = m
      · subst hb
        simp
      · simp only [if_neg hb]
        by_cases hlt : b < m
        · simp [hlt]
          omega
        · simp only [if_neg hlt, if_neg (by omega : ¬ b < m + 1)]

theorem obind_some {α β : Type} (a : α) (f : α → Option β) : (some a).bind f = f a := rfl

theorem readA_cellAt {T : Type} (s : Stele T) (i : Nat) :
    readA s i = cellAt s (split_idx i).1 (split_idx i).2 := rfl

theorem getA_eq_readA {T : Type} (s : Stele T) (i : Nat) : getA s i = readA s i := rfl

theorem cellAt_other {T : Type} (s snew : Stele T) (outer k : Nat)
    (h : snew.inners outer = s.inners outer) : cellAt snew outer k = cellAt s outer k := by
  simp only [cellAt, getSlot, h]

theorem pushA_eq {T : Type} (IS : Nat) (s : Stele T) (v : T) :
    pushA IS s v =
      (if (isPowerOfTwo s.len = true ∧ IS < (split_idx s.len).1) ∨
          ((split_idx s.len).1 ≤ IS ∧ s.len = 0)
       then allocateA IS s (split_idx s.len).1
       else some s).bind fun s1 =>
        (writeCell appendSlotCount s1 (split_idx s.len).1 (split_idx s.len).2 v).bind
          fun s2 => some { s2 with len := s.len + 1 } := rfl

theorem reads_update {T : Type} (s snew : Stele T) (ws : List T) (v : T)
    (outer inner : Nat) (hsp : split_idx ws.length = (outer, inner))
    (hreads : ∀ i, readA s i = ws[i]?)
    (hcell : ∀ k, cellAt snew outer k = if k = inner then some v else cellAt s outer k)
    (hother : ∀ b, b ≠ outer → ∀ k, cellAt snew b k = cellAt s b k) :
    ∀ i, readA snew i = (ws ++ [v])[i]? := by
  intro i
  by_cases hio : (split_idx i).1 = outer
  · by_cases hii : (split_idx i).2 = inner
    · have hiL : i = ws.length := by
        apply split_idx_injective
        rw [hsp, ← hio, ← hii]
      subst hiL
      rw [readA_cellAt, hio, hii, hcell inner, if_pos rfl, List.getElem?_concat_length]
    · have hiL : i ≠ ws.length := by
        intro hcon
        subst hcon
        rw [hsp] at hii
        exact hii rfl
      rw [readA_cellAt, hio, hcell, if_neg hii, ← hio, ← readA_cellAt, hreads i]
      rcases Nat.lt_or_ge i ws.length with hlt | hge
      · rw [List.getElem?_append_left hlt]
      · have hgt : ws.length < i := by omega
        rw [List.getElem?_eq_none_iff.mpr (by omega),
          List.getElem?_eq_none_iff.mpr (by simp; omega)]
  · have hiL : i ≠ ws.length := by
      intro hcon
      subst hcon
      rw [hsp] at hio
      exact hio rfl
    rw [readA_cellAt, hother _ hio, ← readA_cellAt, hreads i]
    rcases Nat.lt_or_ge i ws.length with hlt | hge
    · rw [List.getElem?_append_left hlt]
    · have hgt : ws.length < i := by omega
      rw [List.getElem?_eq_none_iff.mpr (by omega),
        List.getElem?_eq_none_iff.mpr (by simp; omega)]

theorem mk_len {T : Type} (s : Stele T) (n : Nat) :
    ({ s with len := n } : Stele T).len = n := rfl

theorem mk_setSlot_inners {T : Type} (s : Stele T) (i : Nat) (B : Block T) (n j : Nat) :
    ({ setSlot s i B with len := n } : Stele T).inners j =
      if j = i then some B else s.inners j := rfl

theorem pushA_step_zero {T : Type} (IS : Nat) (hIS : IS < 32) (s : Stele T) (v : T)
    (hInv : SteleInv IS ([] : List T) s) :
    ∃ s2, pushA IS s v = some s2 ∧ SteleInv IS [v] s2 := by
  have hsl : s.len = 0 := by simpa using hInv.len_eq
  have hfresh : ∀ b, s.inners b = none := by
    intro b
    have h3 : ¬ (s.inners b).isSome = true := by simp [hInv.slots b]
    exact Option.not_isSome_iff_eq_none.mp h3
  obtain ⟨s1, hs1, hs1len, hs1inn⟩ := installSeq_range (IS + 1) (by omega) s hfresh
  have hs1zero : s1.inners 0 = some (newBlock T (max_len 0)) := by
    rw [hs1inn 0]
    simp
  have hwrite := writeCell_some appendSlotCount s1 0 0 v (newBlock T (max_len 0))
    (by decide) hs1zero
  refine ⟨{ setSlot s1 0
    { newBlock T (max_len 0) with
      cells := fun k => if k = 0 then some v else (newBlock T (max_len 0)).cells k }
    with len := 1 }, ?_, ?_⟩
  · rw [pushA_eq, hsl]
    rw [if_pos (Or.inr ⟨by simp [split_idx_zero], rfl⟩)]
    have halloc : allocateA IS s (split_idx 0).1 = some s1 := by
      show allocateA IS s 0 = some s1
      simp only [allocateA, if_pos rfl]
      exact hs1
    rw [halloc, obind_some]
    have hw2 : writeCell appendSlotCount s1 (split_idx 0).1 (split_idx 0).2 v =
        some (setSlot s1 0
          { newBlock T (max_len 0) with
            cells := fun k => if k = 0 then some v else (newBlock T (max_len 0)).cells k }) :=
      hwrite
    rw [hw2, obind_some]
  · have hmax : max IS (split_idx (([v] : List T).length - 1)).1 = IS := by
      simp [split_idx_zero]
    refine ⟨?_, ?_, ?_, ?_⟩
    · simp [mk_len]
    · intro b
      rw [mk_setSlot_inners, hmax]
      by_cases hb : b = 0
      · subst hb
        simp
      · rw [if_neg hb, hs1inn b]
        by_cases hlt : b < IS + 1
        · rw [if_pos hlt]
          exact ⟨fun _ => ⟨by simp, by omega⟩, fun _ => rfl⟩
        · rw [if_neg hlt]
          constructor
          · intro h2
            simp at h2
          · rintro ⟨-, h2⟩
            exact absurd h2 (by omega)
    · intro b blk h
      rw [mk_setSlot_inners] at h
      by_cases hb : b = 0
      · subst hb
        rw [if_pos rfl] at h
        cases h
        rfl
      · rw [if_neg hb, hs1inn b] at h
        by_cases hlt : b < IS + 1
        · rw [if_pos hlt] at h
          cases h
          rfl
        · rw [if_neg hlt] at h
          cases h
    · show ∀ i, readA _ i = ([] ++ [v])[i]?
      apply reads_update s _ [] v 0 0 (by simp [split_idx_zero]) hInv.reads
      · intro k
        have hcell2 : cellAt s 0 k = none := by
          simp [cellAt, getSlot, hfresh 0, appendSlotCount]
        rw [hcell2]
        simp [cellAt, getSlot, setSlot_inners, newBlock, appendSlotCount]
      · intro b hb k
        simp only [cellAt, getSlot, setSlot_inners, if_neg hb, hs1inn b, hfresh b]
        by_cases hlt : b < IS + 1
        · by_cases h32 : b < appendSlotCount <;> simp [hlt, h32, newBlock]
        · by_cases h32 : b < appendSlotCount <;> simp [hlt, h32]

theorem split_idx_fst_le31 (L : Nat) (h1 : 1 ≤ L) (h : L < 2 ^ 31) :
    (split_idx L).1 ≤ 31 := by
  have hL64 : L < 2 ^ 64 := lt_trans h (by norm_num)
  rw [split_idx_fst L h1 hL64]
  obtain ⟨ha, _⟩ := log2u64_spec L h1 hL64
  by_contra hgt
  have : 2 ^ 31 ≤ 2 ^ log2u64 L := Nat.pow_le_pow_right (by omega) (by omega)
  omega

theorem pushA_step_alloc {T : Type} (IS : Nat) (ws : List T) (s : Stele T) (v : T)
    (hInv : SteleInv IS ws s) (hL1 : 1 ≤ ws.length) (hlen : ws.length < 2 ^ 31)
    (hpow : isPowerOfTwo ws.length = true) (htrig : IS < (split_idx ws.length).1) :
    ∃ s2, pushA IS s v = some s2 ∧ SteleInv IS (ws ++ [v]) s2 := by
  have hL64 : ws.length < 2 ^ 64 := lt_trans hlen (by norm_num)
  have h31 := split_idx_fst_le31 ws.length hL1 hlen
  have h32 : (split_idx ws.length).1 < appendSlotCount := by
    simp only [appendSlotCount]
    omega
  have houter := split_idx_step_pow ws.length hL1 hL64 hpow
  have houter1 := split_idx_fst_pos ws.length hL1
  have hslot_none : s.inners (split_idx ws.length).1 = none := by
    apply Option.not_isSome_iff_eq_none.mp
    rw [hInv.slots]
    rintro ⟨-, hle⟩
    rcases le_max_iff.mp hle with hc | hc <;> omega
  have hs1outer : (setSlot s (split_idx ws.length).1
      (newBlock T (max_len (split_idx ws.length).1))).inners (split_idx ws.length).1 =
      some (newBlock T (max_len (split_idx ws.length).1)) := by
    rw [setSlot_inners, if_pos rfl]
  have hwrite := writeCell_some appendSlotCount _ (split_idx ws.length).1
    (split_idx ws.length).2 v (newBlock T (max_len (split_idx ws.length).1)) h32 hs1outer
  refine ⟨{ setSlot (setSlot s (split_idx ws.length).1
      (newBlock T (max_len (split_idx ws.length).1))) (split_idx ws.length).1
      { newBlock T (max_len (split_idx ws.length).1) with
        cells := fun k => if k = (split_idx ws.length).2 then some v
          else (newBlock T (max_len (split_idx ws.length).1)).cells k }
      with len := ws.length + 1 }, ?_, ?_⟩
  · rw [pushA_eq, hInv.len_eq]
    rw [if_pos (Or.inl ⟨hpow, htrig⟩)]
    have halloc : allocateA IS s (split_idx ws.length).1 =
        some (setSlot s (split_idx ws.length).1
          (newBlock T (max_len (split_idx ws.length).1))) := by
      simp only [allocateA, if_neg (by omega : ¬ (split_idx ws.length).1 = 0)]
      exact casInstall_none _ _ _ h32 hslot_none
    rw [halloc, obind_some, hwrite, obind_some]
  · have hms : (ws ++ [v]).length - 1 = ws.length := by simp
    have hmold : max IS (split_idx (ws.length - 1)).1 = (split_idx (ws.length - 1)).1 :=
      max_eq_right (by omega)
    have hmnew : max IS (split_idx ws.length).1 = (split_idx ws.length).1 :=
      max_eq_right (by omega)
    refine ⟨?_, ?_, ?_, ?_⟩
    · simp [mk_len]
    · intro b
      rw [mk_setSlot_inners, hms, hmnew]
      by_cases hb : b = (split_idx ws.length).1
      · subst hb
        exact ⟨fun _ => ⟨by simp, le_rfl⟩, fun _ => by rw [if_pos rfl]; rfl⟩
      · rw [if_neg hb, setSlot_inners, if_neg hb, hInv.slots b, hmold]
        constructor
        · rintro ⟨-, h2⟩
          exact ⟨by simp, by omega⟩
        · rintro ⟨-, h2⟩
          exact ⟨by omega, by omega⟩
    · intro b blk h
      rw [mk_setSlot_inners] at h
      by_cases hb : b = (split_idx ws.length).1
      · subst hb
        rw [if_pos rfl] at h
        cases h
        rfl
      · rw [if_neg hb, setSlot_inners, if_neg hb] at h
        exact hInv.caps b blk h
    · show ∀ i, readA _ i = (ws ++ [v])[i]?
      apply reads_update s _ ws v (split_idx ws.length).1 (split_idx ws.length).2
        rfl hInv.reads
      · intro k
        by_cases hk : k = (split_idx ws.length).2 <;>
          simp [cellAt, getSlot, setSlot_inners, h32, hslot_none, newBlock, hk]
      · intro b hb k
        simp only [cellAt, getSlot, setSlot_inners, if_neg hb]

theorem pushA_step_noalloc {T : Type} (IS : Nat) (ws : List T) (s : Stele T) (v : T)
    (hInv : SteleInv IS ws s) (hL1 : 1 ≤ ws.length) (hlen : ws.length < 2 ^ 31)
    (htrig : ¬ ((isPowerOfTwo ws.length = true ∧ IS < (split_idx ws.length).1) ∨
      ((split_idx ws.length).1 ≤ IS ∧ ws.length = 0))) :
    ∃ s2, pushA IS s v = some s2 ∧ SteleInv IS (ws ++ [v]) s2 := by
  have hL64 : ws.length < 2 ^ 64 := lt_trans hlen (by norm_num)
  have h31 := split_idx_fst_le31 ws.length hL1 hlen
  have h32 : (split_idx ws.length).1 < appendSlotCount := by
    simp only [appendSlotCount]
    omega
  have hmaxeq : max IS (split_idx (ws.length - 1)).1 = max IS (split_idx ws.length).1 := by
    by_cases hpow : isPowerOfTwo ws.length = true
    · have houter := split_idx_step_pow ws.length hL1 hL64 hpow
      have hIS : (split_idx ws.length).1 ≤ IS := by
        rcases Nat.lt_or_ge IS (split_idx ws.length).1 with hc | hc
        · exact absurd (Or.inl ⟨hpow, hc⟩) htrig
        · exact hc
      rw [max_eq_left (by omega), max_eq_left (by omega)]
    · have houter := split_idx_step_not_pow ws.length hL1 hL64
        (by revert hpow; cases isPowerOfTwo ws.length <;> simp)
      rw [houter]
  have hslot_some : (s.inners (split_idx ws.length).1).isSome = true := by
    rw [hInv.slots]
    exact ⟨by omega, by rw [hmaxeq]; exact le_max_right _ _⟩
  obtain ⟨blk, hblk⟩ := Option.isSome_iff_exists.mp hslot_some
  have hwrite := writeCell_some appendSlotCount s (split_idx ws.length).1
    (split_idx ws.length).2 v blk h32 hblk
  refine ⟨{ setSlot s (split_idx ws.length).1
      { blk with cells := fun k => if k = (split_idx ws.length).2 then some v
          else blk.cells k }
      with len := ws.length + 1 }, ?_, ?_⟩
  · rw [pushA_eq, hInv.len_eq, if_neg htrig, obind_some, hwrite, obind_some]
  · have hms : (ws ++ [v]).length - 1 = ws.length := by simp
    refine ⟨?_, ?_, ?_, ?_⟩
    · simp [mk_len]
    · intro b
      rw [mk_setSlot_inners, hms]
      by_cases hb : b = (split_idx ws.length).1
      · subst hb
        exact ⟨fun _ => ⟨by simp, le_max_right _ _⟩, fun _ => by rw [if_pos rfl]; rfl⟩
      · rw [if_neg hb, hInv.slots b, hmaxeq]
        constructor
        · rintro ⟨-, h2⟩
          exact ⟨by simp, h2⟩
        · rintro ⟨-, h2⟩
          exact ⟨by omega, h2⟩
    · intro b blk2 h
      rw [mk_setSlot_inners] at h
      by_cases hb : b = (split_idx ws.length).1
      · subst hb
        rw [if_pos rfl] at h
        cases h
        show blk.cap = _
        exact hInv.caps _ blk hblk
      · rw [if_neg hb] at h
        exact hInv.caps b blk2 h
    · show ∀ i, readA _ i = (ws ++ [v])[i]?
      apply reads_update s _ ws v (split_idx ws.length).1 (split_idx ws.length).2
        rfl hInv.reads
      · intro k
        by_cases hk : k = (split_idx ws.length).2 <;>
          simp [cellAt, getSlot, setSlot_inners, h32, hblk, hk]
      · intro b hb k
        simp only [cellAt, getSlot, setSlot_inners, if_neg hb]

theorem pushA_step {T : Type} (IS : Nat) (hIS : IS < 32) (ws : List T) (s : Stele T)
    (v : T) (hInv : SteleInv IS ws s) (hlen : ws.length < 2 ^ 31) :
    ∃ s2, pushA IS s v = some s2 ∧ SteleInv IS (ws ++ [v]) s2 := by
  rcases Nat.eq_zero_or_pos ws.length with hL0 | hL1
  · have hws : ws = [] := List.length_eq_zero.mp hL0
    subst hws
    exact pushA_step_zero IS hIS s v hInv
  · by_cases htrig : (isPowerOfTwo ws.length = true ∧ IS < (split_idx ws.length).1) ∨
      ((split_idx ws.length).1 ≤ IS ∧ ws.length = 0)
    · rcases htrig with ⟨hpow, hlt⟩ | ⟨-, h0⟩
      · exact pushA_step_alloc IS ws s v hInv hL1 hlen hpow hlt
      · omega
    · exact pushA_step_noalloc IS ws s v hInv hL1 hlen htrig

theorem steleInv_empty {T : Type} (IS : Nat) : SteleInv IS ([] : List T) steleEmpty := by
  refine ⟨rfl, ?_, ?_, ?_⟩
  · intro b
    simp [steleEmpty]
  · intro b blk h
    simp [steleEmpty] at h
  · intro i
    by_cases h : (split_idx i).1 < appendSlotCount <;>
      simp [readA, getSlot, steleEmpty, h]

theorem pushAllA_from {T : Type} (IS : Nat) (hIS : IS < 32) (vs : List T) :
    ∀ (ws : List T) (s : Stele T), SteleInv IS ws s →
      ws.length + vs.length ≤ 2 ^ 31 →
      ∃ s2, pushAllA IS s vs = some s2 ∧ SteleInv IS (ws ++ vs) s2 := by
  induction vs with
  | nil =>
    intro ws s hInv hlen
    exact ⟨s, rfl, by simpa using hInv⟩
  | cons v rest ih =>
    intro ws s hInv hlen
    obtain ⟨s1, hs1, hInv1⟩ := pushA_step IS hIS ws s v hInv (by simp at hlen; omega)
    obtain ⟨s2, hs2, hInv2⟩ := ih (ws ++ [v]) s1 hInv1 (by simp at hlen ⊢; omega)
    refine ⟨s2, ?_, ?_⟩
    · simp only [pushAllA, hs1]
      exact hs2
    · simpa using hInv2

theorem pushAllA_ok {T : Type} (IS : Nat) (hIS : IS < 32) (vs : List T)
    (hlen : vs.length ≤ 2 ^ 31) :
    ∃ s, pushAllA IS steleEmpty vs = some s ∧ SteleInv IS vs s := by
  obtain ⟨s, hs, hInv⟩ := pushAllA_from IS hIS vs [] steleEmpty (steleInv_empty IS)
    (by simpa using hlen)
  exact ⟨s, hs, by simpa using hInv⟩

theorem pushAllA_append {T : Type} (IS : Nat) (s : Stele T) (l1 l2 : List T) :
    pushAllA IS s (l1 ++ l2) = (pushAllA IS s l1).bind fun s2 => pushAllA IS s2 l2 := by
  induction l1 generalizing s with
  | nil => simp [pushAllA]
  | cons v rest ih =>
    simp only [List.cons_append, pushAllA]
    cases h : pushA IS s v with
    | some s2 => simpa using ih s2
    | none => simp

theorem pushA_fault_at_cap {T : Type} (IS : Nat) (hIS : IS < 32) (ws : List T)
    (s : Stele T) (hInv : SteleInv IS ws s) (hfull : ws.length = 2 ^ 31) (v : T) :
    pushA IS s v = none := by
  have hsp : split_idx ws.length = (32, 0) := by
    rw [hfull]
    exact split_idx_two_pow 31 (by omega)
  have hpow : isPowerOfTwo ws.length = true := by
    rw [hfull]
    exact isPowerOfTwo_two_pow 31 (by omega)
  rw [pushA_eq, hInv.len_eq, hsp]
  rw [if_pos (Or.inl ⟨hpow, by omega⟩)]
  have halloc : allocateA IS s (32, (0:Nat)).1 = none := by
    simp [allocateA, casInstall, casInstallLen, getSlot, appendSlotCount]
  rw [halloc]
  rfl

theorem split_idx_fst_le_of_lt (idx k : Nat) (hk : k ≤ 63) (h : idx < 2 ^ k) :
    (split_idx idx).1 ≤ k := by
  by_cases h0 : idx = 0
  · subst h0
    simp [split_idx_zero]
  · have h1 : 1 ≤ idx := by omega
    have h64 : idx < 2 ^ 64 :=
      lt_of_lt_of_le h (Nat.pow_le_pow_right (by omega) (by omega))
    rw [split_idx_fst idx h1 h64]
    obtain ⟨ha, _⟩ := log2u64_spec idx h1 h64
    by_contra hgt
    have : 2 ^ k ≤ 2 ^ log2u64 idx := Nat.pow_le_pow_right (by omega) (by omega)
    omega

/-- **C5**: `split_idx 0 = (0,0)`; for `idx ≥ 1` in the representable range,
the block is `WORD_SIZE - leading_zeros(idx) = ⌊log₂ idx⌋ + 1` and the offset
is `idx - 2^(block-1)`; the concrete values at 1,2,3,4,7,8 are as the spec
lists them; and `max_len` is 1 on blocks 0 and 1 and `2^(block-1)` above. -/
theorem stele_c5_split_max_len :
    split_idx 0 = (0, 0) ∧
    (∀ idx, 1 ≤ idx → idx < 2 ^ 64 →
      (split_idx idx).1 = WORD_SIZE - leadingZeros idx ∧
      (split_idx idx).1 = Nat.log 2 idx + 1 ∧
      (split_idx idx).2 = idx - 2 ^ ((split_idx idx).1 - 1)) ∧
    split_idx 1 = (1, 0) ∧ split_idx 2 = (2, 0) ∧ split_idx 3 = (2, 1) ∧
    split_idx 4 = (3, 0) ∧ split_idx 7 = (3, 3) ∧ split_idx 8 = (4, 0) ∧
    max_len 0 = 1 ∧ max_len 1 = 1 ∧ (∀ b, 2 ≤ b → max_len b = 2 ^ (b - 1)) := by
  refine ⟨rfl, ?_, by decide, by decide, by decide, by decide, by decide, by decide,
    rfl, rfl, max_len_ge_two⟩
  intro idx h1 h2
  refine ⟨?_, ?_, ?_⟩
  · simp only [split_idx, if_neg (by omega : ¬ idx = 0)]
  · rw [split_idx_fst idx h1 h2, log2u64_eq_log idx h1 h2]
  · rw [split_idx_fst idx h1 h2, split_idx_snd idx h1 h2]
    simp

/-- Witness for C5 at concrete inputs. -/
theorem stele_c5_split_max_len_witness :
    (split_idx 12).1 = Nat.log 2 12 + 1 ∧ max_len 5 = 2 ^ 4 := by
  obtain ⟨-, hgen, hrest⟩ := stele_c5_split_max_len
  obtain ⟨-, -, -, -, -, -, -, -, hml⟩ := hrest
  exact ⟨(hgen 12 (by omega) (by norm_num)).2.1, hml 5 (by omega)⟩

/-- **C6**: the index mapping is a bijection onto the in-range (block, offset)
pairs: it is injective on all of `ℕ`, `unsplit` (`(b,o) ↦ 2^(b-1)+o`,
`(0,0) ↦ 0`) is a two-sided inverse on pairs with `offset < max_len block`
(for the blocks `b ≤ 64` a 64-bit index can reach), and concatenating the
blocks in order — `blockStart` summing `max_len` — reproduces the append
order exactly. -/
theorem stele_c6_bijection :
    (∀ i j : Nat, split_idx i = split_idx j → i = j) ∧
    (∀ idx : Nat, unsplit (split_idx idx).1 (split_idx idx).2 = idx) ∧
    (∀ b o : Nat, b ≤ 64 → o < max_len b → split_idx (unsplit b o) = (b, o)) ∧
    (∀ idx : Nat, idx < 2 ^ 64 →
      blockStart (split_idx idx).1 + (split_idx idx).2 = idx) ∧
    unsplit 0 0 = 0 ∧ (∀ b o : Nat, 1 ≤ b → unsplit b o = 2 ^ (b - 1) + o) := by
  refine ⟨split_idx_injective, unsplit_split, split_unsplit, blockStart_split, rfl, ?_⟩
  intro b o hb
  simp only [unsplit, if_neg (show ¬ b = 0 by omega)]

/-- Witness for C6 at concrete inputs. -/
theorem stele_c6_bijection_witness :
    unsplit (split_idx 11).1 (split_idx 11).2 = 11 ∧
    split_idx (unsplit 4 5) = (4, 5) ∧
    blockStart (split_idx 11).1 + (split_idx 11).2 = 11 := by
  obtain ⟨-, hinv, hsur, hord, -, -⟩ := stele_c6_bijection
  exact ⟨hinv 11, hsur 4 5 (by omega) (by decide), hord 11 (by norm_num)⟩

/-- **C9 counterexample**: the claim fixes the slot array at `W = 64` slots
and asserts that every index representable by the `usize` counter maps inside
the array. Both parts fail on the code: the handle-based variant declares
`[AtomicPtr<Inner<T>>; 32]` (32 ≠ 64 slots), and even the 64-slot `lib.rs`
array is exceeded by the representable index `2^63` (block 64); for the
32-slot variants the representable index `2^31` (block 32) already maps out
of bounds. -/
theorem stele_c9_cex :
    appendSlotCount = 32 ∧ WORD_SIZE = 64 ∧ appendSlotCount ≠ WORD_SIZE ∧
    2 ^ 31 < 2 ^ 64 ∧ (split_idx (2 ^ 31)).1 = 32 ∧
    ¬ (split_idx (2 ^ 31)).1 < appendSlotCount ∧
    2 ^ 63 < 2 ^ 64 ∧ (split_idx (2 ^ 63)).1 = 64 ∧
    ¬ (split_idx (2 ^ 63)).1 < libSlotCount := by
  refine ⟨rfl, rfl, by decide, by norm_num, ?_, ?_, by norm_num, ?_, ?_⟩
  · rw [split_idx_two_pow 31 (by omega)]
  · rw [split_idx_two_pow 31 (by omega)]
    decide
  · rw [split_idx_two_pow 63 (by omega)]
  · rw [split_idx_two_pow 63 (by omega)]
    decide

/-- **C9 (amended)**: the slot arrays are fixed at 32 entries (handle-based
variants) and `WORD_SIZE = 64` entries (`lib.rs`), and `split_idx` stays in
bounds exactly for indices below `2^31` (resp. `2^63`) — the combined capacity
of the blocks the array can hold — not for every representable index. -/
theorem stele_c9_bounds :
    appendSlotCount = 32 ∧ libSlotCount = WORD_SIZE ∧ WORD_SIZE = 64 ∧
    (∀ idx, idx < 2 ^ 31 → (split_idx idx).1 < appendSlotCount) ∧
    (∀ idx, idx < 2 ^ 63 → (split_idx idx).1 < libSlotCount) := by
  refine ⟨rfl, rfl, rfl, ?_, ?_⟩
  · intro idx h
    have := split_idx_fst_le_of_lt idx 31 (by omega) h
    simp only [appendSlotCount]
    omega
  · intro idx h
    have := split_idx_fst_le_of_lt idx 63 (by omega) h
    simp only [libSlotCount, WORD_SIZE]
    omega

/-- Witness for the amended C9 at concrete indices. -/
theorem stele_c9_bounds_witness :
    (split_idx 1000000).1 < appendSlotCount ∧ (split_idx 1000000).1 < libSlotCount := by
  obtain ⟨-, -, -, h32, h64⟩ := stele_c9_bounds
  exact ⟨h32 1000000 (by norm_num), h64 1000000 (by norm_num)⟩

/-- **C1 (amended)**: on the handle-based variant, any sequence of
`N ≤ 2^31` pushes on a fresh `Stele` succeeds; afterwards `len()` returns `N`
and, for every `i < N`, `read(i)` (and `get(i)` for Copy types) returns the
`i`-th pushed value — the `i`-th push is assigned exactly global index `i`.
(`N = 2^31` is the combined capacity of the 32 blocks the slot array holds;
see the counterexample for `N` beyond it.) -/
theorem stele_c1_append_order {T : Type} (IS : Nat) (hIS : IS < 32) (vs : List T)
    (hN : vs.length ≤ 2 ^ 31) :
    ∃ s, pushAllA IS steleEmpty vs = some s ∧ s.len = vs.length ∧
      ∀ i, i < vs.length → readA s i = vs[i]? ∧ getA s i = vs[i]? := by
  obtain ⟨s, hs, hInv⟩ := pushAllA_ok IS hIS vs hN
  exact ⟨s, hs, hInv.len_eq, fun i _ =>
    ⟨hInv.reads i, by rw [getA_eq_readA]; exact hInv.reads i⟩⟩

/-- Witness for the amended C1: three pushes of `10, 20, 30` with
`INITIAL_SIZE = 2` (the `size_of ∈ 2..=1023` schedule). -/
theorem stele_c1_append_order_witness :
    ∃ s, pushAllA 2 steleEmpty [10, 20, 30] = some s ∧ s.len = [10, 20, 30].length ∧
      ∀ i, i < [10, 20, 30].length →
        readA s i = [10, 20, 30][i]? ∧ getA s i = [10, 20, 30][i]? :=
  stele_c1_append_order 2 (by omega) [10, 20, 30] (by norm_num)

/-- **C1 counterexample**: the claim as stated quantifies over every `N`, but
the push carrying global index `2^31` calls `allocate(32)`, which indexes the
32-entry slot array out of bounds (a panic in the source, `none` in the
model): a sequence of `2^31 + 1` pushes cannot complete. -/
theorem stele_c1_cex :
    pushAllA 2 steleEmpty (List.replicate (2 ^ 31 + 1) (0 : Nat)) = none := by
  obtain ⟨s, hs, hInv⟩ := pushAllA_ok 2 (by omega) (List.replicate (2 ^ 31) (0 : Nat))
    (by rw [List.length_replicate])
  have hsplit : List.replicate (2 ^ 31 + 1) (0 : Nat) =
      List.replicate (2 ^ 31) (0 : Nat) ++ List.replicate 1 (0 : Nat) :=
    List.replicate_add (2 ^ 31) 1 0
  rw [hsplit, pushAllA_append, hs, obind_some]
  have hfault := pushA_fault_at_cap 2 (by omega) _ s hInv (by rw [List.length_replicate]) 0
  rw [List.replicate_one]
  simp only [pushAllA, hfault]

theorem split_idx_fst_mono (i j : Nat) (h : i ≤ j) (hj : j < 2 ^ 64) :
    (split_idx i).1 ≤ (split_idx j).1 := by
  by_cases hi0 : i = 0
  · subst hi0
    simp [split_idx_zero]
  · have hi1 : 1 ≤ i := by omega
    have hj1 : 1 ≤ j := by omega
    have hi64 : i < 2 ^ 64 := by omega
    rw [split_idx_fst i hi1 hi64, split_idx_fst j hj1 hj]
    obtain ⟨hia, _⟩ := log2u64_spec i hi1 hi64
    obtain ⟨-, hjb⟩ := log2u64_spec j hj1 hj
    have hle : 2 ^ log2u64 i < 2 ^ (log2u64 j + 1) := by omega
    have := (Nat.pow_lt_pow_iff_right (by omega : 1 < 2)).mp hle
    omega

/-- **C8**: on any state reached by a sequence of pushes within capacity,
the next push succeeds — in particular every compare-exchange it performs
finds the slot still null, so the `expect` failure branch of `allocate` is
unreachable — whenever the push triggers allocation the `allocate` call
returns successfully, and no slot ever reverts from non-null to null. -/
theorem stele_c8_one_shot {T : Type} (IS : Nat) (hIS : IS < 32) (ws : List T)
    (s : Stele T) (hreach : pushAllA IS steleEmpty ws = some s)
    (hlen : ws.length < 2 ^ 31) (v : T) :
    ∃ s2, pushA IS s v = some s2 ∧
      (((isPowerOfTwo s.len = true ∧ IS < (split_idx s.len).1) ∨
        ((split_idx s.len).1 ≤ IS ∧ s.len = 0)) →
        (allocateA IS s (split_idx s.len).1).isSome) ∧
      (∀ b, (s.inners b).isSome → (s2.inners b).isSome) := by
  obtain ⟨s', hs', hInv⟩ := pushAllA_ok IS hIS ws (by omega)
  rw [hreach] at hs'
  cases hs'
  obtain ⟨s2, hpush, hInv2⟩ := pushA_step IS hIS ws s v hInv hlen
  refine ⟨s2, hpush, ?_, ?_⟩
  · intro htrig
    rw [pushA_eq, if_pos htrig] at hpush
    cases halloc : allocateA IS s (split_idx s.len).1 with
    | some s1 => rfl
    | none =>
      rw [hInv.len_eq] at halloc
      rw [hInv.len_eq, halloc] at hpush
      simp at hpush
  · intro b hb
    rw [hInv.slots b] at hb
    rw [hInv2.slots b]
    obtain ⟨hne, hle⟩ := hb
    have hL64 : ws.length < 2 ^ 64 := lt_trans hlen (by norm_num)
    have hmono : (split_idx (ws.length - 1)).1 ≤
        (split_idx ((ws ++ [v]).length - 1)).1 := by
      have he : (ws ++ [v]).length - 1 = ws.length := by simp
      rw [he]
      exact split_idx_fst_mono (ws.length - 1) ws.length (by omega) hL64
    refine ⟨by simp, ?_⟩
    rcases le_max_iff.mp hle with hc | hc
    · exact le_max_iff.mpr (Or.inl hc)
    · exact le_max_iff.mpr (Or.inr (by omega))

/-- Witness for C8: a push on the state reached by pushes `[5, 6]` with
`INITIAL_SIZE = 1`. -/
theorem stele_c8_one_shot_witness :
    ∃ s2, pushA 1 ((pushAllA 1 steleEmpty [5, 6]).getD steleEmpty) (7 : Nat) = some s2 ∧
      (((isPowerOfTwo ((pushAllA 1 steleEmpty [5, 6]).getD steleEmpty).len = true ∧
        1 < (split_idx ((pushAllA 1 steleEmpty [5, 6]).getD steleEmpty).len).1) ∨
        ((split_idx ((pushAllA 1 steleEmpty [5, 6]).getD steleEmpty).len).1 ≤ 1 ∧
          ((pushAllA 1 steleEmpty [5, 6]).getD steleEmpty).len = 0)) →
        (allocateA 1 ((pushAllA 1 steleEmpty [5, 6]).getD steleEmpty)
          (split_idx ((pushAllA 1 steleEmpty [5, 6]).getD steleEmpty).len).1).isSome) ∧
      (∀ b, (((pushAllA 1 steleEmpty [5, 6]).getD steleEmpty).inners b).isSome →
        (s2.inners b).isSome) :=
  stele_c8_one_shot 1 (by omega) [5, 6] _ rfl (by norm_num) 7

/-- **C10**: `INITIAL_SIZE` is 3 for 1-byte elements, 2 for sizes 2..=1023 and
1 otherwise; the first push on an empty handle-based `Stele` installs blocks
`0..=INITIAL_SIZE` together in one `allocate(0)` call; and afterwards a block
`b > INITIAL_SIZE` becomes non-null exactly at the successful push whose
global index is `2^(b-1)`. -/
theorem stele_c10_growth_schedule {T : Type} :
    (initialSize 1 = 3 ∧ (∀ sz, 2 ≤ sz → sz ≤ 1023 → initialSize sz = 2) ∧
      initialSize 0 = 1 ∧ (∀ sz, 1024 ≤ sz → initialSize sz = 1)) ∧
    (∀ IS : Nat, IS < 32 → ∀ v : T,
      ∃ s, pushA IS steleEmpty v = some s ∧
        ∀ b, (s.inners b).isSome ↔ b ≤ IS) ∧
    (∀ IS : Nat, IS < 32 → ∀ ws : List T, ∀ s : Stele T,
      pushAllA IS steleEmpty ws = some s → ws ≠ [] → ws.length < 2 ^ 31 →
      ∀ v : T, ∃ s2, pushA IS s v = some s2 ∧
        ∀ b, IS < b →
          ((s2.inners b).isSome ↔ ((s.inners b).isSome ∨ ws.length = 2 ^ (b - 1)))) := by
  refine ⟨⟨rfl, ?_, rfl, ?_⟩, ?_, ?_⟩
  · intro sz h1 h2
    simp only [initialSize, if_neg (by omega : ¬ sz = 1), if_pos (by omega : 2 ≤ sz ∧ sz ≤ 1023)]
  · intro sz h1
    simp only [initialSize, if_neg (by omega : ¬ sz = 1),
      if_neg (by omega : ¬ (2 ≤ sz ∧ sz ≤ 1023))]
  · intro IS hIS v
    obtain ⟨s, hpush, hInv⟩ := pushA_step_zero IS hIS steleEmpty v (steleInv_empty IS)
    refine ⟨s, hpush, ?_⟩
    intro b
    rw [hInv.slots b]
    simp [split_idx_zero]
  · intro IS hIS ws s hreach hne hlen v
    obtain ⟨s', hs', hInv⟩ := pushAllA_ok IS hIS ws (by omega)
    rw [hreach] at hs'
    cases hs'
    obtain ⟨s2, hpush, hInv2⟩ := pushA_step IS hIS ws s v hInv hlen
    refine ⟨s2, hpush, ?_⟩
    intro b hb
    have hL1 : 1 ≤ ws.length := by
      have := List.length_pos.mpr hne
      omega
    have hL64 : ws.length < 2 ^ 64 := lt_trans hlen (by norm_num)
    have hb1 : 1 ≤ b := by omega
    have hH := split_idx_fst ws.length hL1 hL64
    have hmsnew : (ws ++ [v]).length - 1 = ws.length := by simp
    rw [hInv2.slots b, hInv.slots b, hmsnew]
    have hiff1 : ∀ M : Nat, (b ≤ max IS M ↔ b ≤ M) := by
      intro M
      constructor
      · intro h
        rcases le_max_iff.mp h with hc | hc <;> omega
      · intro h
        exact le_max_iff.mpr (Or.inr h)
    rw [hiff1, hiff1]
    by_cases hpow : isPowerOfTwo ws.length = true
    · obtain ⟨heq, -⟩ := (isPowerOfTwo_iff ws.length).mp hpow
      have hstep := split_idx_step_pow ws.length hL1 hL64 hpow
      constructor
      · intro h2
        rcases Nat.lt_or_ge (split_idx (ws.length - 1)).1 b with hc | hc
        · refine Or.inr ?_
          have hbH : b = (split_idx ws.length).1 := by omega
          rw [heq]
          congr 1
          omega
        · exact Or.inl ⟨by omega, hc⟩
      · rintro (⟨-, h2⟩ | h2)
        · refine ⟨by simp, by omega⟩
        · refine ⟨by simp, ?_⟩
          have hlog : log2u64 ws.length = b - 1 := by
            rw [h2]
            apply log2u64_two_pow
            have hlt : 2 ^ (b - 1) < 2 ^ 31 := h2 ▸ hlen
            have := (Nat.pow_lt_pow_iff_right (by omega : 1 < 2)).mp hlt
            omega
          omega
    · have hstep := split_idx_step_not_pow ws.length hL1 hL64
        (by revert hpow; cases isPowerOfTwo ws.length <;> simp)
      rw [hstep]
      constructor
      · rintro ⟨-, h2⟩
        exact Or.inl ⟨by omega, h2⟩
      · rintro (⟨-, h2⟩ | h2)
        · exact ⟨by simp, h2⟩
        · exfalso
          have hb63 : b - 1 ≤ 63 := by
            have hlt : 2 ^ (b - 1) < 2 ^ 31 := h2 ▸ hlen
            have := (Nat.pow_lt_pow_iff_right (by omega : 1 < 2)).mp hlt
            omega
          exact absurd (isPowerOfTwo_of_eq_pow ws.length (b - 1) hb63 h2) (by simp [hpow])

/-- Witness for C10 at concrete inputs: `INITIAL_SIZE` cases, the first push
with `IS = 1`, and the push at index 2 (= `2^1`, allocating block 2). -/
theorem stele_c10_growth_schedule_witness :
    initialSize 512 = 2 ∧
    (∃ s, pushA 1 steleEmpty (42 : Nat) = some s ∧
      ∀ b, (s.inners b).isSome ↔ b ≤ 1) ∧
    (∃ s2, pushA 1 ((pushAllA 1 steleEmpty [5, 6]).getD steleEmpty) (7 : Nat) = some s2 ∧
      ∀ b, 1 < b →
        ((s2.inners b).isSome ↔
          ((((pushAllA 1 steleEmpty [5, 6]).getD steleEmpty).inners b).isSome ∨
            ([5, 6] : List Nat).length = 2 ^ (b - 1)))) := by
  obtain ⟨⟨-, hsz, -, -⟩, hfirst, hlater⟩ := stele_c10_growth_schedule (T := Nat)
  exact ⟨hsz 512 (by omega) (by omega), hfirst 1 (by omega) 42,
    hlater 1 (by omega) [5, 6] _ rfl (by simp) (by norm_num) 7⟩

/-- **C2** (evaluation at the failing input): in `src/lib.rs` the `push`
OPENS with `cap.fetch_add(1)`. Right after that step of the first push on an
empty `Stele`, the counter already covers index 0 (`len = 1`, the assigned
index is 0), yet slot 0 — the block of `split_idx 0` — is still null and
`read(0)` finds no written cell: the length store precedes the element store,
the opposite of the claimed order. The completed push (`pushLib`) does
initialize the cell, showing the violation is the intra-push ordering. -/
theorem stele_c2_lib_publish_before_write :
    (pushLibFetchAdd (steleEmpty : Stele Nat)).1.len = 1 ∧
    (pushLibFetchAdd (steleEmpty : Stele Nat)).2 = 0 ∧
    (pushLibFetchAdd (steleEmpty : Stele Nat)).2 <
      (pushLibFetchAdd (steleEmpty : Stele Nat)).1.len ∧
    (pushLibFetchAdd (steleEmpty : Stele Nat)).1.inners (split_idx 0).1 = none ∧
    readLib (pushLibFetchAdd (steleEmpty : Stele Nat)).1 0 = none ∧
    pushLib (steleEmpty : Stele Nat) 10 = some libS1 ∧
    readLib libS1 0 = some 10 :=
  ⟨rfl, rfl, by decide, rfl, rfl, rfl, rfl⟩

/-- **C3** (evaluation at the failing input): `src/lib.rs`'s `try_read` has no
length check. After `push(10); push(20); push(30)` the length is 3, and
`try_read(3)` maps to block 2 offset 1 — inside the already-allocated block 2
of capacity 2 — so it dereferences the block and returns `Some` of an
UNWRITTEN cell (`some none` in the model) instead of `None`. The handle-based
variant's bounds-checked `try_read` (`tryReadA`) returns `None` on the same
state. -/
theorem stele_c3_lib_try_read_oob :
    pushAllLib steleEmpty [10, 20, 30] = some libS3 ∧
    libS3.len = 3 ∧ libS3.len ≤ 3 ∧
    split_idx 3 = (2, 1) ∧
    tryReadLib libS3 3 = some none ∧
    tryReadA libS3 3 = none :=
  ⟨rfl, rfl, by decide, by decide, rfl, rfl⟩

/-- **C4** (evaluation at the failing input): dropping the `src/lib.rs`
variant with final length 3. Block 2 was allocated (at push index 2, with
capacity `max_len 2 = 2`), but `num_inners = WORD_SIZE - 3.leading_zeros() = 2`,
so `Drop` only deallocates blocks 0 and 1 — block 2 is leaked. -/
theorem stele_c4_lib_drop_leak :
    pushAllLib steleEmpty [10, 20, 30] = some libS3 ∧
    libS3.len = 3 ∧
    (libS3.inners 2).isSome = true ∧
    Option.map Block.cap (libS3.inners 2) = some (max_len 2) ∧
    libDropRange 3 = 2 ∧
    libDropList libS3.len = [(0, 1), (1, 1)] ∧
    (∀ p, p ∈ libDropList libS3.len → p.1 ≠ 2) :=
  ⟨rfl, rfl, rfl, rfl, by decide, rfl, by decide⟩

/-- **C7 counterexample**: `CopyIter` from `src/iter.rs` stores no length
snapshot — its `next` re-reads the live `self.len()`. Constructed on a
`src/lib.rs` `Stele` of length 1, it yields element 0; after the writer
pushes one more value, its next call yields element 1 as well, instead of
stopping at the construction-time length of 1 as the claim states. -/
theorem stele_c7_cex :
    libS1.len = 1 ∧
    copyIterLiveNext libS1 { pos := 0 } = some (some 10, { pos := 1 }) ∧
    pushLib libS1 20 = some libS2 ∧
    libS2.len = 2 ∧
    copyIterLiveNext libS2 { pos := 1 } = some (some 20, { pos := 2 }) :=
  ⟨rfl, rfl, rfl, rfl, rfl⟩

/-- **C7 (amended)**: the by-reference iterators and the handle-based
`CopyIterator` capture the length once at construction and yield exactly the
elements at indices `0..snapshot` in index order, stopping at the snapshot
even if the sequence grows during the iteration (each `next` against any
later state still returns the snapshot state's element); the `src/iter.rs`
`CopyIter`, in contrast, stops only at the CURRENT length it re-reads on
every call. -/
theorem stele_c7_snapshot {T : Type} (IS : Nat) (hIS : IS < 32) (ws0 vs : List T)
    (s0 s : Stele T) (h0 : pushAllA IS steleEmpty ws0 = some s0)
    (hgrow : pushAllA IS s0 vs = some s)
    (hlen : ws0.length + vs.length ≤ 2 ^ 31) :
    refIteratorNew s0 = { pos := 0, len := s0.len } ∧
    copyIteratorNew s0 = { pos := 0, len := s0.len } ∧
    (∀ pos, pos < s0.len →
      refIteratorNext s { pos := pos, len := s0.len } =
        some (readA s0 pos, { pos := pos + 1, len := s0.len }) ∧
      copyIteratorNext s { pos := pos, len := s0.len } =
        some (getA s0 pos, { pos := pos + 1, len := s0.len }) ∧
      (readA s0 pos).isSome = true) ∧
    (∀ pos, s0.len ≤ pos →
      refIteratorNext s { pos := pos, len := s0.len } = none ∧
      copyIteratorNext s { pos := pos, len := s0.len } = none) ∧
    (∀ (sx : Stele T) (it : CopyIterLiveSt),
      copyIterLiveNext sx it = none ↔ sx.len ≤ it.pos) := by
  obtain ⟨s0', hs0', hInv0⟩ := pushAllA_ok IS hIS ws0 (by omega)
  rw [h0] at hs0'
  cases hs0'
  obtain ⟨s', hs', hInv⟩ := pushAllA_from IS hIS vs ws0 s0 hInv0 hlen
  rw [hgrow] at hs'
  cases hs'
  have hlen0 : s0.len = ws0.length := hInv0.len_eq
  have hstable : ∀ pos, pos < s0.len → readA s pos = readA s0 pos := by
    intro pos hpos
    rw [hInv.reads pos, hInv0.reads pos,
      List.getElem?_append_left (by omega : pos < ws0.length)]
  refine ⟨rfl, rfl, ?_, ?_, ?_⟩
  · intro pos hpos
    refine ⟨?_, ?_, ?_⟩
    · simp only [refIteratorNext, if_pos hpos]
      rw [hstable pos hpos]
    · simp only [copyIteratorNext, if_pos hpos]
      rw [getA_eq_readA, getA_eq_readA, hstable pos hpos]
    · rw [hInv0.reads pos]
      rw [List.getElem?_eq_getElem (by omega : pos < ws0.length)]
      rfl
  · intro pos hpos
    constructor
    · simp only [refIteratorNext, if_neg (by omega : ¬ pos < s0.len)]
    · simp only [copyIteratorNext, if_neg (by omega : ¬ pos < s0.len)]
  · intro sx it
    simp only [copyIterLiveNext]
    by_cases h : it.pos < sx.len
    · simp only [if_pos h]
      constructor
      · intro hcon
        cases hcon
      · intro hcon
        omega
    · rw [if_neg h]
      exact ⟨fun _ => by omega, fun _ => rfl⟩

/-- Witness for the amended C7: the snapshot taken on `c7s0` (length 2) is
honoured by `RefIterator`/`CopyIterator` even against the grown state
`c7s1` (length 3). -/
theorem stele_c7_snapshot_witness :
    (∀ pos, pos < c7s0.len →
      refIteratorNext c7s1 { pos := pos, len := c7s0.len } =
        some (readA c7s0 pos, { pos := pos + 1, len := c7s0.len }) ∧
      copyIteratorNext c7s1 { pos := pos, len := c7s0.len } =
        some (getA c7s0 pos, { pos := pos + 1, len := c7s0.len }) ∧
      (readA c7s0 pos).isSome = true) ∧
    (∀ pos, c7s0.len ≤ pos →
      refIteratorNext c7s1 { pos := pos, len := c7s0.len } = none ∧
      copyIteratorNext c7s1 { pos := pos, len := c7s0.len } = none) :=
  ⟨(stele_c7_snapshot 2 (by omega) [1, 2] [5] c7s0 c7s1 rfl rfl (by norm_num)).2.2.1,
   (stele_c7_snapshot 2 (by omega) [1, 2] [5] c7s0 c7s1 rfl rfl (by norm_num)).2.2.2.1⟩

theorem readA_isSome_inv {T : Type} (s : Stele T) (idx : Nat)
    (h : (readA s idx).isSome = true) :
    ∃ blk, (split_idx idx).1 < appendSlotCount ∧
      s.inners (split_idx idx).1 = some blk ∧
      blk.cells (split_idx idx).2 = readA s idx := by
  revert h
  simp only [readA, getSlot]
  by_cases hb : (split_idx idx).1 < appendSlotCount
  · rw [if_pos hb]
    cases hs : s.inners (split_idx idx).1 with
    | none =>
      intro hcon
      simp at hcon
    | some blk =>
      rintro -
      exact ⟨blk, hb, rfl, rfl⟩
  · rw [if_neg hb]
    intro hcon
    simp at hcon

/-- Supplement to C2: the handle-based `src/append.rs` push order (write the
cell, THEN store `len + 1`) maintains the no-use-before-write invariant in
every reachable state: below the published length, the slot pointer is always
non-null and the cell always written. -/
theorem append_no_use_before_write {T : Type} (IS : Nat) (hIS : IS < 32)
    (ws : List T) (s : Stele T) (hreach : pushAllA IS steleEmpty ws = some s)
    (hlen : ws.length ≤ 2 ^ 31) :
    ∀ idx, idx < s.len →
      (s.inners (split_idx idx).1).isSome = true ∧ (readA s idx).isSome = true := by
  obtain ⟨s', hs', hInv⟩ := pushAllA_ok IS hIS ws hlen
  rw [hreach] at hs'
  cases hs'
  intro idx hidx
  rw [hInv.len_eq] at hidx
  have hsome : (readA s idx).isSome = true := by
    rw [hInv.reads idx, List.getElem?_eq_getElem hidx]
    rfl
  obtain ⟨blk, -, hslot, -⟩ := readA_isSome_inv s idx hsome
  rw [hslot]
  exact ⟨rfl, hsome⟩

/-- Supplement to C3: the handle-based `src/append.rs` `try_read` is exactly
the checked read the spec demands — `none` precisely at or past the current
length, and `some` of the stored element below it — on every reachable
state. -/
theorem tryReadA_spec {T : Type} (IS : Nat) (hIS : IS < 32) (ws : List T)
    (s : Stele T) (hreach : pushAllA IS steleEmpty ws = some s)
    (hlen : ws.length ≤ 2 ^ 31) :
    ∀ idx, (tryReadA s idx = none ↔ s.len ≤ idx) ∧
      (idx < s.len → tryReadA s idx = some (ws[idx]?)) := by
  obtain ⟨s', hs', hInv⟩ := pushAllA_ok IS hIS ws hlen
  rw [hreach] at hs'
  cases hs'
  have hkey : ∀ idx, idx < s.len → tryReadA s idx = some (ws[idx]?) := by
    intro idx hidx
    have hsome : (readA s idx).isSome = true := by
      rw [hInv.reads idx]
      rw [hInv.len_eq] at hidx
      rw [List.getElem?_eq_getElem hidx]
      rfl
    obtain ⟨blk, h32, hslot, hcells⟩ := readA_isSome_inv s idx hsome
    simp only [tryReadA, if_neg (by omega : ¬ s.len ≤ idx), getSlot, if_pos h32, hslot]
    rw [hcells, hInv.reads idx]
  intro idx
  refine ⟨?_, hkey idx⟩
  constructor
  · intro hnone
    by_contra hlt
    have := hkey idx (by omega)
    rw [hnone] at this
    cases this
  · intro hle
    simp only [tryReadA, if_pos hle]

theorem appendDropRange_eq (IS L : Nat) (h1 : 1 ≤ L) (hL : L ≤ 2 ^ 31) :
    appendDropRange IS L = max (IS + 1) ((split_idx (L - 1)).1 + 1) := by
  by_cases hL1 : L = 1
  · subst hL1
    simp only [appendDropRange, if_neg (by omega : ¬ (1:Nat) = 0)]
    rw [Nat.max_comm]
    rfl
  · have hL2 : 2 ≤ L := by omega
    have h64 : L - 1 < 2 ^ 64 := by
      have : (2:Nat) ^ 31 < 2 ^ 64 := by norm_num
      omega
    have ha30 : log2u64 (L - 1) ≤ 30 := by
      obtain ⟨ha, -⟩ := log2u64_spec (L - 1) (by omega) h64
      by_contra hgt
      have : 2 ^ 31 ≤ 2 ^ log2u64 (L - 1) := Nat.pow_le_pow_right (by omega) (by omega)
      omega
    have hnpot : nextPowerOfTwo L = 2 ^ (log2u64 (L - 1) + 1) := by
      simp only [nextPowerOfTwo, if_neg (by omega : ¬ L ≤ 1)]
    have hlz : leadingZeros (nextPowerOfTwo L) = 63 - (log2u64 (L - 1) + 1) := by
      rw [hnpot]
      simp only [leadingZeros,
        if_neg (by positivity : ¬ (2:Nat) ^ (log2u64 (L - 1) + 1) = 0)]
      rw [log2u64_two_pow _ (by omega)]
    simp only [appendDropRange, if_neg (by omega : ¬ L = 0), hlz]
    have hsp : (split_idx (L - 1)).1 = log2u64 (L - 1) + 1 :=
      split_idx_fst (L - 1) (by omega) h64
    rw [hsp, Nat.max_comm, WORD_SIZE]
    congr 1
    omega

/-- Supplement to C4: the handle-based `src/append.rs` `Drop`
(`num_inners = max(usize::BITS - size.next_power_of_two().leading_zeros(),
INITIAL_SIZE + 1)`) deallocates exactly the non-null slots, each with the
same `max_len` size the block was allocated with, on every non-empty
reachable state. -/
theorem appendDrop_matches {T : Type} (IS : Nat) (hIS : IS < 32) (ws : List T)
    (s : Stele T) (hreach : pushAllA IS steleEmpty ws = some s) (hne : ws ≠ [])
    (hlen : ws.length ≤ 2 ^ 31) :
    (∀ b, (s.inners b).isSome = true ↔ b < appendDropRange IS s.len) ∧
    (∀ b blk, s.inners b = some blk → blk.cap = max_len b) := by
  obtain ⟨s', hs', hInv⟩ := pushAllA_ok IS hIS ws hlen
  rw [hreach] at hs'
  cases hs'
  refine ⟨?_, hInv.caps⟩
  intro b
  have hL1 : 1 ≤ ws.length := by
    have := List.length_pos.mpr hne
    omega
  rw [hInv.len_eq, appendDropRange_eq IS ws.length hL1 hlen, hInv.slots b,
    Nat.succ_max_succ]
  constructor
  · rintro ⟨-, h2⟩
    omega
  · intro h2
    exact ⟨by omega, by omega⟩
